import Mathlib

set_option maxHeartbeats 4000000
set_option maxRecDepth 100000

/-!
Verification development for the anzenlite repository (src/static/v3/app.js).

The file embeds the cryptographic codec (encodeMessage / decodeMessage with
their base64 wire framing) and the disclosure engine (sentence splitting,
masked rendering, input masking, reveal animation) as executable Lean
definitions, and proves the specified properties about them.

Modelling conventions:
* JavaScript strings are modelled as Lean `String` (a list of characters);
  byte sequences (`Uint8Array`) are `List Nat` with values below 256.
* `btoa` / `atob` are modelled by `btoaModel` / `atobModel`; `atobModel`
  implements the WHATWG forgiving-base64 decode used by `atob`.
* The AES-GCM/PBKDF2 primitive behind `crypto.subtle` is not part of the
  repository; it is modelled from the spec as an ideal authenticated cipher
  (`aeadEncrypt` / `aeadDecrypt`): decryption succeeds exactly on the
  untampered ciphertext produced under the same passphrase-derived key and
  nonce, which is the contract the spec assigns to the primitive.
-/

namespace Anzen

/-! ### Bytes and text

`charBytes` serializes one character into three bytes (code points are below
0x110000, hence fit in three bytes); `strToBytes` serializes a string.  This
is the idealized counterpart of the UTF-8 `TextEncoder`: any injective byte
serialization of text is an adequate model, since the bytes only ever flow
into the opaque cipher. -/

def charBytes (c : Char) : List Nat :=
  [c.toNat % 256, c.toNat / 256 % 256, c.toNat / 65536]

def strToBytes (s : String) : List Nat :=
  (s.data.map charBytes).flatten

def bytesToChars : List Nat → Option (List Char)
  | [] => some []
  | a :: b :: c :: rest =>
    let n := a + 256 * b + 65536 * c
    if Nat.isValidChar n then
      match bytesToChars rest with
      | some cs => some (Char.ofNat n :: cs)
      | none => none
    else none
  | _ => none

/-! ### Length header

`lebGo` writes a natural number in little-endian base-128 with continuation
bits (the fuel argument only bounds the recursion depth; `fuel ≥ n` is always
sufficient).  `lebDecode` reads it back. -/

def lebGo : Nat → Nat → List Nat
  | 0, n => [n]
  | fuel + 1, n => if n < 128 then [n] else (128 + n % 128) :: lebGo fuel (n / 128)

def leb128 (n : Nat) : List Nat := lebGo n n

def lebDecode : List Nat → Option (Nat × List Nat)
  | [] => none
  | b :: rest =>
    if b < 128 then some (b, rest)
    else
      match lebDecode rest with
      | some (n, r) => some (b - 128 + 128 * n, r)
      | none => none

/-! ### Ideal authenticated cipher

Modelled from the spec: the `crypto.subtle` AES-GCM encryption with a
PBKDF2-derived key is not in the repository.  The spec requires of it exactly
(a) round trip under the same passphrase, salt and nonce, (b) failure on any
tampered ciphertext byte, and (c) failure under any other passphrase, with no
plaintext ever returned on failure.  The model realizes this contract: the
ciphertext is an injectively framed record of the derived key material
(passphrase bytes with a length header, salt, nonce) and the plaintext bytes,
closed by a mod-256 checksum byte; decryption re-derives the expected header
from its own key material and verifies both header and checksum. -/

def keyHeader (pass : String) (salt nonce : List Nat) : List Nat :=
  let pb := strToBytes pass
  leb128 pb.length ++ pb ++ salt ++ nonce

def aeadEncrypt (pass : String) (salt nonce : List Nat) (pt : String) : List Nat :=
  let body := keyHeader pass salt nonce ++ strToBytes pt
  body ++ [body.sum % 256]

def aeadDecrypt (pass : String) (salt nonce : List Nat) (ct : List Nat) : Option String :=
  let pre := keyHeader pass salt nonce
  if pre.length < ct.length ∧ ct.take pre.length = pre then
    let rest := ct.drop pre.length
    let mid := rest.dropLast
    if rest.getLast? = some ((pre ++ mid).sum % 256) then
      match bytesToChars mid with
      | some cs => some (String.mk cs)
      | none => none
    else none
  else none

/-! ### Base64 (`toBase64` / `fromBase64` from app.js)

`toBase64` builds a binary string from the payload bytes and calls `btoa`;
`fromBase64` calls `atob` and reads the code units back into bytes.  `btoa`
is standard base64 encoding of a byte sequence; `atob` is the WHATWG
forgiving-base64 decode, which fails on malformed input by throwing an
`InvalidCharacterError` (a platform exception distinct from every error the
repository itself constructs). -/

def b64Char (n : Nat) : Char :=
  if n < 26 then Char.ofNat (65 + n)
  else if n < 52 then Char.ofNat (97 + (n - 26))
  else if n < 62 then Char.ofNat (48 + (n - 52))
  else if n = 62 then Char.ofNat 43
  else Char.ofNat 47

def encodeChunks : List Nat → List Char
  | [] => []
  | [a] => [b64Char (a / 4), b64Char (a % 4 * 16), Char.ofNat 61, Char.ofNat 61]
  | [a, b] => [b64Char (a / 4), b64Char (a % 4 * 16 + b / 16), b64Char (b % 16 * 4), Char.ofNat 61]
  | a :: b :: c :: rest =>
    b64Char (a / 4) :: b64Char (a % 4 * 16 + b / 16) :: b64Char (b % 16 * 4 + c / 64)
      :: b64Char (c % 64) :: encodeChunks rest

def btoaModel (bytes : List Nat) : String := String.mk (encodeChunks bytes)

def b64Index (c : Char) : Option Nat :=
  let n := c.toNat
  if 65 ≤ n ∧ n ≤ 90 then some (n - 65)
  else if 97 ≤ n ∧ n ≤ 122 then some (n - 97 + 26)
  else if 48 ≤ n ∧ n ≤ 57 then some (n - 48 + 52)
  else if n = 43 then some 62
  else if n = 47 then some 63
  else none

def b64Indices : List Char → Option (List Nat)
  | [] => some []
  | c :: cs =>
    match b64Index c, b64Indices cs with
    | some v, some vs => some (v :: vs)
    | _, _ => none

def decodeSextets : List Nat → List Nat
  | a :: b :: c :: d :: rest =>
    (a * 4 + b / 16) :: (b % 16 * 16 + c / 4) :: (c % 4 * 64 + d) :: decodeSextets rest
  | [a, b] => [a * 4 + b / 16]
  | [a, b, c] => [a * 4 + b / 16, b % 16 * 16 + c / 4]
  | _ => []

def isB64Ws (c : Char) : Bool :=
  c.toNat = 9 || c.toNat = 10 || c.toNat = 12 || c.toNat = 13 || c.toNat = 32

def dropPad (l : List Char) : List Char :=
  if l.getLast? = some (Char.ofNat 61) then
    let l1 := l.dropLast
    if l1.getLast? = some (Char.ofNat 61) then l1.dropLast else l1
  else l

def atobCore (data : List Char) : Option (List Nat) :=
  let data2 := if data.length % 4 = 0 then dropPad data else data
  if data2.length % 4 = 1 then none
  else (b64Indices data2).map decodeSextets

def atobModel (s : String) : Option (List Nat) :=
  atobCore (s.data.filter (fun c => !(isB64Ws c)))

/-! ### The codec entry points (`encodeMessage` / `decodeMessage`)

`encodeMessage` takes the fresh random salt (16 bytes) and nonce (12 bytes)
as explicit arguments; the `Uint8Array` payload stores bytes modulo 256.
`decodeMessage` mirrors the source line by line; the error constructors
correspond to the exceptions of the source as follows:
`emptyPassphrase` to `Passphrase cannot be empty`, `malformedPayload` to
`Invalid cipher payload.`, `authenticationFailure` to
`Invalid passphrase or corrupted data`, and `invalidCharacter` to the
platform `InvalidCharacterError` that `atob` throws and `decodeMessage`
leaves uncaught. -/

inductive CodecError
  | emptyPassphrase
  | invalidCharacter
  | malformedPayload
  | authenticationFailure
deriving DecidableEq, Repr

deriving instance DecidableEq for Except

def encodePayload (plainText passkey : String) (salt nonce : List Nat) : List Nat :=
  (salt ++ nonce ++ aeadEncrypt passkey salt nonce plainText).map (· % 256)

def encodeMessage (plainText passkey : String) (salt nonce : List Nat) :
    Except CodecError String :=
  if passkey = "" then .error .emptyPassphrase
  else .ok (btoaModel (encodePayload plainText passkey salt nonce))

def decodeMessage (cipherText passkey : String) : Except CodecError String :=
  if passkey = "" then .error .emptyPassphrase
  else
    match atobModel cipherText with
    | none => .error .invalidCharacter
    | some payload =>
      if payload.length ≤ 28 then .error .malformedPayload
      else
        let salt := payload.take 16
        let iv := (payload.drop 16).take 12
        let data := payload.drop 28
        match aeadDecrypt passkey salt iv data with
        | some pt => .ok pt
        | none => .error .authenticationFailure

def isJsWs (c : Char) : Bool :=
  let n := c.toNat
  n == 9 || n == 10 || n == 11 || n == 12 || n == 13 || n == 32 || n == 160 ||
  n == 5760 || (decide (8192 ≤ n) && decide (n ≤ 8202)) || n == 8232 || n == 8233 ||
  n == 8239 || n == 8287 || n == 12288 || n == 65279

def isTerminator (c : Char) : Bool :=
  c == '.' || c == '!' || c == '?'

def skipWsFrom (text : List Char) (e : Nat) : Nat :=
  e + ((text.drop e).takeWhile isJsWs).length

def splitGo : Nat → List Char → Nat → Nat → List (List Char) → List (List Char)
  | 0, text, _, start, acc =>
    acc ++ (if start < text.length then [text.drop start] else [])
  | fuel + 1, text, i, start, acc =>
    if i < text.length then
      let c := text.getD i ' '
      if isTerminator c ∧ (text.length ≤ i + 1 ∨ isJsWs (text.getD (i + 1) ' ')) then
        let e := skipWsFrom text (i + 1)
        if start < e then splitGo fuel text e e (acc ++ [(text.take e).drop start])
        else splitGo fuel text (i + 1) start acc
      else splitGo fuel text (i + 1) start acc
    else acc ++ (if start < text.length then [text.drop start] else [])

def splitIntoSentences (text : String) : List String :=
  ((splitGo text.data.length text.data 0 0 []).filter (fun s => s ≠ [])).map String.mk

def maskChar (c : Char) : Char := if isJsWs c then c else '*'

def maskNonWs (s : String) : String := String.mk (s.data.map maskChar)

def maskLeadingPortion (segment : String) : String :=
  if segment.data = [] then "" else
  let keepCharacters := max 6 (segment.length / 4)
  let maskLength := segment.length - keepCharacters
  String.mk ((segment.data.take maskLength).map maskChar ++ segment.data.drop maskLength)

def joinStrings (l : List String) : String := String.mk ((l.map String.data).flatten)

def computeMaskedDecoded (text : String) : String :=
  if text = "" then "" else
  let sentences := splitIntoSentences text
  if sentences.length = 0 then text else
  let visibleStart := sentences.length - 3
  joinStrings (sentences.enum.map (fun p =>
    if p.1 < visibleStart then maskNonWs p.2
    else if sentences.length ≤ 3 ∧ p.1 = visibleStart then maskLeadingPortion p.2
    else p.2))

def tokenize (l : List Char) : List (List Char) :=
  l.foldr
    (fun c acc =>
      match acc with
      | (d :: run) :: rest =>
        if isJsWs c = isJsWs d then (c :: d :: run) :: rest
        else [c] :: (d :: run) :: rest
      | _ => [[c]])
    []

def computeDisplayMessage (text : String) (maskLastWord : Bool) : String :=
  let tokens := tokenize text.data
  let lastWordIndex : Int := tokens.enum.foldl
    (fun acc p => if isJsWs (p.2.headD 'a') then acc else (p.1 : Int)) (-1)
  if lastWordIndex = -1 then text
  else
    String.mk ((tokens.enum.map (fun p =>
      if isJsWs (p.2.headD 'a') then p.2
      else if maskLastWord ∨ (p.1 : Int) ≠ lastWordIndex then List.replicate p.2.length '*'
      else p.2)).flatten)

def maskDelayMs : Nat := 5000

def idleMaskedDisplay (realMessage : String) : String :=
  computeDisplayMessage realMessage true

/-- Masked prefix as worded by the spec: all but a trailing window of
max(6, floor(0.25 times segment length)) characters have their non-whitespace
characters replaced with asterisks. -/
def maskedPrefixSpec (seg : String) : String :=
  let window := max 6 (seg.length / 4)
  String.mk ((seg.data.take (seg.length - window)).map maskChar
    ++ seg.data.drop (seg.length - window))

/-- State of animateDecode: the closure variable index, the displayedResult
field, the isAnimating flag and whether a reveal timer callback is pending.
The randomized step delays only schedule the next callback and never affect
frame content or order, so steps are indexed by callback count. -/
structure AnimState where
  index : Nat
  displayedResult : String
  isAnimating : Bool
  timerPending : Bool
deriving DecidableEq, Repr

def prefixOf (t : String) (k : Nat) : String := String.mk (t.data.take k)

/-- State set up by animateDecode before its first synchronous reveal call. -/
def animInit : AnimState :=
  { index := 0, displayedResult := "", isAnimating := true, timerPending := true }

/-- One firing of the reveal callback from animateDecode. -/
def revealStep (text : String) (s : AnimState) : AnimState :=
  if s.timerPending then
    let index := s.index + 1
    if index < text.length then
      { index := index, displayedResult := computeMaskedDecoded (prefixOf text index),
        isAnimating := s.isAnimating, timerPending := true }
    else
      { index := index, displayedResult := computeMaskedDecoded text,
        isAnimating := false, timerPending := false }
  else s

def animState (text : String) (k : Nat) : AnimState := (revealStep text)^[k] animInit

/-- Number of reveal callback firings until the animation completes. -/
def revealSteps (text : String) : Nat := max 1 text.length

example : splitIntoSentences "One. Two. Three. Four."
    = ["One. ", "Two. ", "Three. ", "Four."] := by decide
example : computeMaskedDecoded "One. Two. Three. Four." = "**** Two. Three. Four." := by decide
example : computeDisplayMessage "the quick brown" false = "*** ***** brown" := by decide
example : computeDisplayMessage "the quick brown" true = "*** ***** *****" := by decide
example : computeMaskedDecoded "Hi." = "Hi." := by decide
example : splitIntoSentences "Hello there." = ["Hello there."] := by decide

theorem lebGo_mem_lt (fuel n : Nat) (hn : n ≤ fuel ∨ n < 128) :
    ∀ b ∈ lebGo fuel n, b < 256 := by
  induction fuel generalizing n with
  | zero =>
    intro b hb
    rcases hn with h | h
    · simp [lebGo] at hb; omega
    · simp [lebGo] at hb; omega
  | succ fuel ih =>
    intro b hb
    by_cases h : n < 128
    · simp [lebGo, h] at hb; omega
    · simp [lebGo, h] at hb
      rcases hb with hb | hb
      · omega
      · exact ih (n / 128) (by omega) b hb

theorem leb128_mem_lt (n : Nat) : ∀ b ∈ leb128 n, b < 256 :=
  lebGo_mem_lt n n (Or.inl le_rfl)

theorem lebDecode_lebGo (fuel n : Nat) (r : List Nat) (hn : n ≤ fuel ∨ n < 128) :
    lebDecode (lebGo fuel n ++ r) = some (n, r) := by
  induction fuel generalizing n with
  | zero =>
    have : n < 128 := by omega
    simp [lebGo, lebDecode, this]
  | succ fuel ih =>
    by_cases h : n < 128
    · simp [lebGo, lebDecode, h]
    · have h2 : n / 128 ≤ fuel ∨ n / 128 < 128 := by
        left; omega
      simp [lebGo, h, lebDecode, ih (n / 128) h2]
      omega

theorem lebDecode_leb128 (n : Nat) (r : List Nat) :
    lebDecode (leb128 n ++ r) = some (n, r) :=
  lebDecode_lebGo n n r (Or.inl le_rfl)

theorem charBytes_mem_lt (c : Char) : ∀ b ∈ charBytes c, b < 256 := by
  have hv : Nat.isValidChar c.toNat := c.valid
  have : c.toNat < 1114112 := by
    rcases hv with h | h
    · omega
    · omega
  intro b hb
  simp [charBytes] at hb
  rcases hb with h | h | h <;> omega

theorem strToBytes_mem_lt (s : String) : ∀ b ∈ strToBytes s, b < 256 := by
  intro b hb
  simp [strToBytes] at hb
  obtain ⟨c, _, hc⟩ := hb
  exact charBytes_mem_lt c b hc

theorem strToBytes_length (s : String) : (strToBytes s).length = 3 * s.data.length := by
  unfold strToBytes
  induction s.data with
  | nil => simp
  | cons c l ih => simp [charBytes] at ih ⊢; omega

theorem bytesToChars_flatten (l : List Char) :
    bytesToChars ((l.map charBytes).flatten) = some l := by
  induction l with
  | nil => simp [bytesToChars]
  | cons c l ih =>
    have hv : Nat.isValidChar c.toNat := c.valid
    have hlt : c.toNat < 1114112 := by rcases hv with h | h <;> omega
    have harith : c.toNat % 256 + 256 * (c.toNat / 256 % 256) + 65536 * (c.toNat / 65536)
        = c.toNat := by omega
    simp [charBytes, bytesToChars, harith, hv, ih, Char.ofNat_toNat]

theorem bytesToChars_strToBytes (s : String) : bytesToChars (strToBytes s) = some s.data :=
  bytesToChars_flatten s.data

theorem strToBytes_inj {a b : String} (h : strToBytes a = strToBytes b) : a = b := by
  have ha := bytesToChars_strToBytes a
  have hb := bytesToChars_strToBytes b
  rw [h, hb] at ha
  cases a; cases b
  simp at ha
  simp [ha]

theorem b64Index_b64Char : ∀ n < 64, b64Index (b64Char n) = some n := by decide

theorem b64Char_ne_pad : ∀ n < 64, b64Char n ≠ Char.ofNat 61 := by decide

theorem b64Char_not_ws : ∀ n < 64, isB64Ws (b64Char n) = false := by decide

theorem pad_not_ws : isB64Ws (Char.ofNat 61) = false := by decide

theorem encodeChunks_no_ws (bytes : List Nat) (hb : ∀ x ∈ bytes, x < 256) :
    ∀ c ∈ encodeChunks bytes, isB64Ws c = false := by
  induction bytes using encodeChunks.induct with
  | case1 => simp [encodeChunks]
  | case2 a =>
    have ha : a < 256 := hb a (by simp)
    intro c hc
    simp [encodeChunks] at hc
    rcases hc with h | h | h <;> subst h
    · exact b64Char_not_ws _ (by omega)
    · exact b64Char_not_ws _ (by omega)
    · exact pad_not_ws
  | case3 a b =>
    have ha : a < 256 := hb a (by simp)
    have hb2 : b < 256 := hb b (by simp)
    intro c hc
    simp [encodeChunks] at hc
    rcases hc with h | h | h | h <;> subst h
    · exact b64Char_not_ws _ (by omega)
    · exact b64Char_not_ws _ (by omega)
    · exact b64Char_not_ws _ (by omega)
    · exact pad_not_ws
  | case4 a b c rest ih =>
    have ha : a < 256 := hb a (by simp)
    have hb2 : b < 256 := hb b (by simp)
    have hc2 : c < 256 := hb c (by simp)
    have hrest : ∀ x ∈ rest, x < 256 := fun x hx => hb x (by simp [hx])
    intro d hd
    simp [encodeChunks] at hd
    rcases hd with h | h | h | h | h
    · subst h; exact b64Char_not_ws _ (by omega)
    · subst h; exact b64Char_not_ws _ (by omega)
    · subst h; exact b64Char_not_ws _ (by omega)
    · subst h; exact b64Char_not_ws _ (by omega)
    · exact ih hrest d h

theorem encodeChunks_length_mod4 (bytes : List Nat) :
    (encodeChunks bytes).length % 4 = 0 := by
  induction bytes using encodeChunks.induct with
  | case1 => simp [encodeChunks]
  | case2 a => simp [encodeChunks]
  | case3 a b => simp [encodeChunks]
  | case4 a b c rest ih => simp [encodeChunks]; omega

theorem b64Indices_append {x y : List Char} {u v : List Nat}
    (hx : b64Indices x = some u) (hy : b64Indices y = some v) :
    b64Indices (x ++ y) = some (u ++ v) := by
  induction x generalizing u with
  | nil => simp [b64Indices] at hx; subst hx; simpa using hy
  | cons c cs ih =>
    rcases h1 : b64Index c with _ | val <;> rcases h2 : b64Indices cs with _ | vs <;>
      simp [b64Indices, h1, h2] at hx
    subst hx
    simp [b64Indices, h1, ih h2]

theorem encodeChunks_len_ge (bytes : List Nat) (h : bytes ≠ []) :
    4 ≤ (encodeChunks bytes).length := by
  induction bytes using encodeChunks.induct with
  | case1 => simp at h
  | case2 a => simp [encodeChunks]
  | case3 a b => simp [encodeChunks]
  | case4 a b c rest ih => simp [encodeChunks]

theorem dropPad_append (pre l : List Char) (h : 2 ≤ l.length) :
    dropPad (pre ++ l) = pre ++ dropPad l := by
  have hne : l ≠ [] := by intro he; subst he; simp at h
  have hgl : (pre ++ l).getLast? = l.getLast? := by
    rcases h2 : l.getLast? with _ | x
    · exact absurd (List.getLast?_eq_none_iff.mp h2) hne
    · rw [List.getLast?_append, h2]; rfl
  have hd1 : (pre ++ l).dropLast = pre ++ l.dropLast :=
    List.dropLast_append_of_ne_nil pre hne
  have hne2 : l.dropLast ≠ [] := by
    have hlen : l.dropLast.length = l.length - 1 := List.length_dropLast l
    intro he; rw [he] at hlen; simp at hlen; omega
  have hgl2 : (pre ++ l.dropLast).getLast? = l.dropLast.getLast? := by
    rcases h3 : l.dropLast.getLast? with _ | y
    · exact absurd (List.getLast?_eq_none_iff.mp h3) hne2
    · rw [List.getLast?_append, h3]; rfl
  have hd2 : (pre ++ l.dropLast).dropLast = pre ++ l.dropLast.dropLast :=
    List.dropLast_append_of_ne_nil pre hne2
  unfold dropPad
  dsimp only
  rw [hgl, hd1, hgl2, hd2]
  by_cases hp : l.getLast? = some (Char.ofNat 61) <;>
    by_cases hp2 : l.dropLast.getLast? = some (Char.ofNat 61) <;>
    simp [hp, hp2]

theorem atobCore_encodeChunks (bytes : List Nat) (hb : ∀ x ∈ bytes, x < 256) :
    atobCore (encodeChunks bytes) = some bytes := by
  induction bytes using encodeChunks.induct with
  | case1 => decide
  | case2 a =>
    have ha : a < 256 := hb a (by simp)
    have h1 : b64Index (b64Char (a / 4)) = some (a / 4) := b64Index_b64Char _ (by omega)
    have h2 : b64Index (b64Char (a % 4 * 16)) = some (a % 4 * 16) :=
      b64Index_b64Char _ (by omega)
    simp [encodeChunks, atobCore, dropPad, b64Indices, h1, h2, decodeSextets]
    omega
  | case3 a b =>
    have ha : a < 256 := hb a (by simp)
    have hb2 : b < 256 := hb b (by simp)
    have h1 : b64Index (b64Char (a / 4)) = some (a / 4) := b64Index_b64Char _ (by omega)
    have h2 : b64Index (b64Char (a % 4 * 16 + b / 16)) = some (a % 4 * 16 + b / 16) :=
      b64Index_b64Char _ (by omega)
    have h3 : b64Index (b64Char (b % 16 * 4)) = some (b % 16 * 4) :=
      b64Index_b64Char _ (by omega)
    have hne3 : b64Char (b % 16 * 4) ≠ Char.ofNat 61 := b64Char_ne_pad _ (by omega)
    simp [encodeChunks, atobCore, dropPad, b64Indices, h1, h2, h3, decodeSextets, hne3]
    constructor <;> omega
  | case4 a b c rest ih =>
    have ha : a < 256 := hb a (by simp)
    have hb2 : b < 256 := hb b (by simp)
    have hc : c < 256 := hb c (by simp)
    have hrest : ∀ x ∈ rest, x < 256 := fun x hx => hb x (by simp [hx])
    have h1 : b64Index (b64Char (a / 4)) = some (a / 4) := b64Index_b64Char _ (by omega)
    have h2 : b64Index (b64Char (a % 4 * 16 + b / 16)) = some (a % 4 * 16 + b / 16) :=
      b64Index_b64Char _ (by omega)
    have h3 : b64Index (b64Char (b % 16 * 4 + c / 64)) = some (b % 16 * 4 + c / 64) :=
      b64Index_b64Char _ (by omega)
    have h4 : b64Index (b64Char (c % 64)) = some (c % 64) := b64Index_b64Char _ (by omega)
    rcases hr : rest with _ | ⟨r0, rtail⟩
    · subst hr
      have hne : b64Char (c % 64) ≠ Char.ofNat 61 := b64Char_ne_pad _ (by omega)
      simp [encodeChunks, atobCore, dropPad, b64Indices, h1, h2, h3, h4, decodeSextets, hne]
      refine ⟨by omega, by omega, by omega⟩
    · subst hr
      set L := encodeChunks (r0 :: rtail) with hL
      have hL4 : 4 ≤ L.length := encodeChunks_len_ge _ (by simp)
      have hLmod : L.length % 4 = 0 := encodeChunks_length_mod4 _
      specialize ih hrest
      unfold atobCore at ih
      rw [if_pos hLmod] at ih
      by_cases hbad : (dropPad L).length % 4 = 1
      · rw [if_pos hbad] at ih; simp at ih
      · rw [if_neg hbad] at ih
        rcases hsx : b64Indices (dropPad L) with _ | sx
        · rw [hsx] at ih; simp at ih
        · rw [hsx] at ih
          simp at ih
          have henc : encodeChunks (a :: b :: c :: r0 :: rtail)
              = [b64Char (a / 4), b64Char (a % 4 * 16 + b / 16), b64Char (b % 16 * 4 + c / 64),
                 b64Char (c % 64)] ++ L := by
            simp [encodeChunks, hL]
          rw [henc]
          unfold atobCore
          have hlen : ([b64Char (a / 4), b64Char (a % 4 * 16 + b / 16),
              b64Char (b % 16 * 4 + c / 64), b64Char (c % 64)] ++ L).length % 4 = 0 := by
            simp; omega
          rw [if_pos hlen]
          rw [dropPad_append _ _ (by omega)]
          have hfour : b64Indices [b64Char (a / 4), b64Char (a % 4 * 16 + b / 16),
              b64Char (b % 16 * 4 + c / 64), b64Char (c % 64)]
              = some [a / 4, a % 4 * 16 + b / 16, b % 16 * 4 + c / 64, c % 64] := by
            simp [b64Indices, h1, h2, h3, h4]
          dsimp only
          rw [b64Indices_append hfour hsx]
          have hmod2 : ([b64Char (a / 4), b64Char (a % 4 * 16 + b / 16),
              b64Char (b % 16 * 4 + c / 64), b64Char (c % 64)] ++ dropPad L).length % 4
              = (dropPad L).length % 4 := by
            simp; omega
          rw [if_neg (by rw [hmod2]; exact hbad)]
          simp [decodeSextets, ih]
          refine ⟨by omega, by omega, by omega⟩

theorem atob_btoa (bytes : List Nat) (hb : ∀ x ∈ bytes, x < 256) :
    atobModel (btoaModel bytes) = some bytes := by
  unfold atobModel btoaModel
  have hf : (String.mk (encodeChunks bytes)).data.filter (fun c => !(isB64Ws c))
      = encodeChunks bytes := by
    apply List.filter_eq_self.mpr
    intro c hc
    simp [encodeChunks_no_ws bytes hb c hc]
  rw [hf]
  exact atobCore_encodeChunks bytes hb

theorem set_append_right {α : Type} (A l : List α) (i : Nat) (b : α) (h : A.length ≤ i) :
    (A ++ l).set i b = A ++ l.set (i - A.length) b := by
  induction A generalizing i with
  | nil => simp
  | cons x A ih =>
    cases i with
    | zero => simp at h
    | succ i =>
      simp only [List.cons_append, List.set_cons_succ]
      rw [ih i (by simpa using h)]
      simp [Nat.succ_sub_succ]

theorem set_append_left {α : Type} (A l : List α) (i : Nat) (b : α) (h : i < A.length) :
    (A ++ l).set i b = A.set i b ++ l := by
  induction A generalizing i with
  | nil => simp at h
  | cons x A ih =>
    cases i with
    | zero => simp
    | succ i =>
      simp only [List.cons_append, List.set_cons_succ]
      rw [ih i (by simpa using h)]

theorem sum_set_getD (l : List Nat) (i a : Nat) (h : i < l.length) :
    (l.set i a).sum + l.getD i 0 = l.sum + a := by
  induction l generalizing i with
  | nil => simp at h
  | cons x l ih =>
    cases i with
    | zero => simp [List.getD]; omega
    | succ i =>
      simp only [List.set_cons_succ, List.sum_cons, List.getD_cons_succ]
      have := ih i (by simpa using h)
      omega

theorem keyHeader_mem_lt (pass : String) (salt nonce : List Nat)
    (hs : ∀ x ∈ salt, x < 256) (hn : ∀ x ∈ nonce, x < 256) :
    ∀ x ∈ keyHeader pass salt nonce, x < 256 := by
  intro x hx
  have hk : keyHeader pass salt nonce
      = leb128 (strToBytes pass).length ++ strToBytes pass ++ salt ++ nonce := rfl
  rw [hk] at hx
  simp only [List.append_assoc, List.mem_append] at hx
  rcases hx with h | h | h | h
  · exact leb128_mem_lt _ x h
  · exact strToBytes_mem_lt _ x h
  · exact hs x h
  · exact hn x h

theorem aeadEncrypt_mem_lt (pass : String) (salt nonce : List Nat) (pt : String)
    (hs : ∀ x ∈ salt, x < 256) (hn : ∀ x ∈ nonce, x < 256) :
    ∀ x ∈ aeadEncrypt pass salt nonce pt, x < 256 := by
  intro x hx
  have he : aeadEncrypt pass salt nonce pt
      = keyHeader pass salt nonce ++ strToBytes pt
        ++ [(keyHeader pass salt nonce ++ strToBytes pt).sum % 256] := rfl
  rw [he] at hx
  simp only [List.append_assoc, List.mem_append, List.mem_singleton] at hx
  rcases hx with h | h | h
  · exact keyHeader_mem_lt pass salt nonce hs hn x h
  · exact strToBytes_mem_lt _ x h
  · subst h; omega

theorem string_mk_data (s : String) : String.mk s.data = s := rfl

theorem aeadDecrypt_aeadEncrypt (pass : String) (salt nonce : List Nat) (pt : String) :
    aeadDecrypt pass salt nonce (aeadEncrypt pass salt nonce pt) = some pt := by
  unfold aeadDecrypt aeadEncrypt
  dsimp only
  set pre := keyHeader pass salt nonce with hpre
  set body := pre ++ strToBytes pt with hbody
  have hassoc : body ++ [body.sum % 256] = pre ++ (strToBytes pt ++ [body.sum % 256]) := by
    simp [hbody]
  rw [hassoc]
  have hcond : pre.length < (pre ++ (strToBytes pt ++ [body.sum % 256])).length ∧
      (pre ++ (strToBytes pt ++ [body.sum % 256])).take pre.length = pre := by
    constructor
    · simp
    · exact List.take_left pre _
  rw [if_pos hcond]
  rw [List.drop_left pre _]
  rw [List.dropLast_concat, List.getLast?_concat]
  rw [if_pos (by rw [hbody])]
  rw [bytesToChars_strToBytes]

theorem keyHeader_eq (pass : String) (salt nonce : List Nat) :
    keyHeader pass salt nonce
      = leb128 (strToBytes pass).length ++ (strToBytes pass ++ salt ++ nonce) := by
  have : keyHeader pass salt nonce
      = leb128 (strToBytes pass).length ++ strToBytes pass ++ salt ++ nonce := rfl
  rw [this]
  simp [List.append_assoc]

theorem keyHeader_length (pass : String) (salt nonce : List Nat) :
    (keyHeader pass salt nonce).length
      = (leb128 (strToBytes pass).length).length + (strToBytes pass).length
        + salt.length + nonce.length := by
  rw [keyHeader_eq]
  simp
  omega

theorem aeadDecrypt_wrong_key (p1 p2 : String) (salt nonce : List Nat) (pt : String)
    (hne : p2 ≠ p1) :
    aeadDecrypt p2 salt nonce (aeadEncrypt p1 salt nonce pt) = none := by
  unfold aeadDecrypt
  dsimp only
  rw [if_neg]
  rintro ⟨hlen, htake⟩
  set ct := aeadEncrypt p1 salt nonce pt with hct
  set n1 := (strToBytes p1).length with hn1
  set n2 := (strToBytes p2).length with hn2
  have hsplit1 : ct = leb128 n1 ++ (strToBytes p1 ++ salt ++ nonce
      ++ (strToBytes pt ++ [(keyHeader p1 salt nonce ++ strToBytes pt).sum % 256])) := by
    have : ct = keyHeader p1 salt nonce ++ strToBytes pt
        ++ [(keyHeader p1 salt nonce ++ strToBytes pt).sum % 256] := rfl
    rw [this, keyHeader_eq]
    simp [List.append_assoc]
  have hdec1 : lebDecode ct = some (n1, strToBytes p1 ++ salt ++ nonce
      ++ (strToBytes pt ++ [(keyHeader p1 salt nonce ++ strToBytes pt).sum % 256])) := by
    rw [hsplit1]; exact lebDecode_leb128 _ _
  have hsplit2 : ct = leb128 n2 ++ ((strToBytes p2 ++ salt ++ nonce)
      ++ ct.drop (keyHeader p2 salt nonce).length) := by
    conv_lhs => rw [← List.take_append_drop (keyHeader p2 salt nonce).length ct, htake]
    rw [keyHeader_eq]
    simp [List.append_assoc]
  have hdec2 : lebDecode ct = some (n2, (strToBytes p2 ++ salt ++ nonce)
      ++ ct.drop (keyHeader p2 salt nonce).length) := by
    conv_lhs => rw [hsplit2]
    exact lebDecode_leb128 _ _
  have hn12 : n1 = n2 := by
    rw [hdec1] at hdec2
    exact congrArg Prod.fst (Option.some.inj hdec2)
  have hplen : (keyHeader p2 salt nonce).length = (keyHeader p1 salt nonce).length := by
    rw [keyHeader_length, keyHeader_length, ← hn1, ← hn2, hn12]
  have htake1 : ct.take (keyHeader p1 salt nonce).length = keyHeader p1 salt nonce := by
    have : ct = keyHeader p1 salt nonce ++ (strToBytes pt
        ++ [(keyHeader p1 salt nonce ++ strToBytes pt).sum % 256]) := by
      have h0 : ct = keyHeader p1 salt nonce ++ strToBytes pt
          ++ [(keyHeader p1 salt nonce ++ strToBytes pt).sum % 256] := rfl
      rw [h0]; simp [List.append_assoc]
    rw [this]
    exact List.take_left _ _
  have hpre : keyHeader p2 salt nonce = keyHeader p1 salt nonce := by
    rw [← htake, hplen, htake1]
  have hpb : strToBytes p2 = strToBytes p1 := by
    rw [keyHeader_eq, keyHeader_eq, ← hn1, ← hn2, hn12] at hpre
    have h2 := List.append_cancel_left hpre
    have h3 : (strToBytes p2 ++ (salt ++ nonce)) = (strToBytes p1 ++ (salt ++ nonce)) := by
      simpa [List.append_assoc] using h2
    exact List.append_cancel_right h3
  exact hne (strToBytes_inj hpb)

theorem aeadDecrypt_tampered (pass : String) (salt nonce : List Nat) (pt : String)
    (j b : Nat)
    (hj : j < (aeadEncrypt pass salt nonce pt).length)
    (hblt : b < 256)
    (hb : b ≠ (aeadEncrypt pass salt nonce pt).getD j 0) :
    aeadDecrypt pass salt nonce ((aeadEncrypt pass salt nonce pt).set j b) = none := by
  set pre := keyHeader pass salt nonce with hpre
  set ptb := strToBytes pt with hptb
  set cks := (pre ++ ptb).sum % 256 with hcks
  have hct : aeadEncrypt pass salt nonce pt = pre ++ (ptb ++ [cks]) := by
    have h0 : aeadEncrypt pass salt nonce pt = pre ++ ptb ++ [cks] := rfl
    rw [h0]; simp [List.append_assoc]
  rw [hct] at hj hb ⊢
  have hlen : (pre ++ (ptb ++ [cks])).length = pre.length + (ptb.length + 1) := by simp
  by_cases hcase : j < pre.length
  · -- the flipped byte lies in the embedded key header
    rw [set_append_left _ _ _ _ hcase]
    have hbj : b ≠ pre.getD j 0 := by
      intro hcon
      apply hb
      rw [List.getD_eq_getElem?_getD, List.getElem?_append, if_pos hcase,
        ← List.getD_eq_getElem?_getD]
      exact hcon
    unfold aeadDecrypt
    dsimp only
    rw [if_neg]
    rintro ⟨h1, h2⟩
    have hlen2 : (pre.set j b).length = pre.length := List.length_set pre j b
    rw [← hlen2] at h2
    rw [List.take_left (pre.set j b) _] at h2
    have := congrArg (fun l => l[j]?) h2
    simp only at this
    rw [List.getElem?_set_eq_of_lt b hcase] at this
    apply hbj
    rw [List.getD_eq_getElem?_getD, ← this]
    rfl
  · -- the flipped byte lies in the plaintext or the checksum byte
    push_neg at hcase
    rw [set_append_right _ _ _ _ hcase]
    unfold aeadDecrypt
    dsimp only
    have hcond : pre.length < (pre ++ (ptb ++ [cks]).set (j - pre.length) b).length ∧
        (pre ++ (ptb ++ [cks]).set (j - pre.length) b).take pre.length = pre :=
      ⟨by simp [List.length_set], List.take_left pre _⟩
    rw [if_pos hcond]
    rw [List.drop_left pre _]
    set j2 := j - pre.length with hj2
    have hj2lt : j2 < ptb.length + 1 := by
      rw [hlen] at hj; omega
    by_cases hcase2 : j2 < ptb.length
    · -- flipped byte inside the ciphertext body: the checksum no longer matches
      rw [set_append_left _ _ _ _ hcase2]
      rw [List.dropLast_concat, List.getLast?_concat]
      set old := ptb.getD j2 0 with hold
      have holdlt : old < 256 := by
        rw [hold, List.getD_eq_getElem?_getD, List.getElem?_eq_getElem hcase2]
        exact strToBytes_mem_lt pt _ (List.getElem_mem hcase2)
      have hbold : b ≠ old := by
        intro hcon
        apply hb
        rw [List.getD_eq_getElem?_getD, List.getElem?_append_right hcase,
          List.getElem?_append, if_pos hcase2, ← List.getD_eq_getElem?_getD]
        rw [hcon, hold, hj2]
      have hsum : (ptb.set j2 b).sum + old = ptb.sum + b := sum_set_getD ptb j2 b hcase2
      have hneg : ¬ (some cks = some ((pre ++ ptb.set j2 b).sum % 256)) := by
        intro hcon
        have h2 := Option.some.inj hcon
        rw [hcks] at h2
        rw [List.sum_append, List.sum_append] at h2
        omega
      rw [if_neg hneg]
    · -- flipped byte is the checksum byte itself
      have hj2eq : j2 = ptb.length := by omega
      rw [set_append_right _ _ _ _ (by omega)]
      have : [cks].set (j2 - ptb.length) b = [b] := by
        rw [hj2eq]; simp
      rw [this]
      rw [List.dropLast_concat, List.getLast?_concat]
      have hbcks : b ≠ cks := by
        intro hcon
        apply hb
        rw [List.getD_eq_getElem?_getD, List.getElem?_append_right hcase,
          List.getElem?_append_right (by omega : ptb.length ≤ j2), hj2eq]
        simp [hcon]
      have hneg : ¬ (some b = some ((pre ++ ptb).sum % 256)) := by
        intro hcon
        exact hbcks (hcks ▸ Option.some.inj hcon)
      rw [if_neg hneg]

theorem map_mod_self (l : List Nat) (h : ∀ x ∈ l, x < 256) : l.map (· % 256) = l := by
  induction l with
  | nil => rfl
  | cons x l ih =>
    have hx : x < 256 := h x (by simp)
    simp only [List.map_cons, Nat.mod_eq_of_lt hx, List.cons.injEq, true_and]
    exact ih (fun y hy => h y (by simp [hy]))

theorem aeadEncrypt_ne_nil (pass : String) (salt nonce : List Nat) (pt : String) :
    aeadEncrypt pass salt nonce pt ≠ [] := by
  have h0 : aeadEncrypt pass salt nonce pt = keyHeader pass salt nonce ++ strToBytes pt
      ++ [(keyHeader pass salt nonce ++ strToBytes pt).sum % 256] := rfl
  rw [h0]
  simp

theorem decodeMessage_framed (p2 : String) (salt nonce ct : List Nat)
    (hp : p2 ≠ "") (hs : salt.length = 16) (hn : nonce.length = 12)
    (hbytes : ∀ x ∈ salt ++ nonce ++ ct, x < 256) (hct : ct ≠ []) :
    decodeMessage (btoaModel (salt ++ nonce ++ ct)) p2
      = match aeadDecrypt p2 salt nonce ct with
        | some pt => Except.ok pt
        | none => Except.error CodecError.authenticationFailure := by
  unfold decodeMessage
  rw [if_neg hp]
  rw [atob_btoa _ hbytes]
  dsimp only
  have hlen : (salt ++ nonce ++ ct).length = 28 + ct.length := by
    simp [hs, hn]; omega
  have hgt : ¬ ((salt ++ nonce ++ ct).length ≤ 28) := by
    rw [hlen]
    have : 0 < ct.length := List.length_pos.mpr hct
    omega
  rw [if_neg hgt]
  have htake16 : (salt ++ nonce ++ ct).take 16 = salt := by
    rw [List.append_assoc, ← hs]
    exact List.take_left salt _
  have hdrop16 : (salt ++ nonce ++ ct).drop 16 = nonce ++ ct := by
    rw [List.append_assoc, ← hs]
    exact List.drop_left salt _
  have htake12 : (nonce ++ ct).take 12 = nonce := by
    rw [← hn]
    exact List.take_left nonce _
  have hdrop28 : (salt ++ nonce ++ ct).drop 28 = ct := by
    have h28 : (28 : Nat) = (salt ++ nonce).length := by simp [hs, hn]
    rw [h28]
    exact List.drop_left _ _
  rw [htake16, hdrop16, htake12, hdrop28]

/-- C1: for every string and non-empty passphrase, with fresh 16-byte salt and
12-byte nonce, decoding the encoded blob under the same passphrase returns the
original string. -/
theorem roundtrip_decode_encode (m p : String) (salt nonce : List Nat)
    (hp : p ≠ "") (hs : salt.length = 16) (hn : nonce.length = 12)
    (hsb : ∀ x ∈ salt, x < 256) (hnb : ∀ x ∈ nonce, x < 256) :
    (encodeMessage m p salt nonce).bind (fun blob => decodeMessage blob p)
      = Except.ok m := by
  unfold encodeMessage
  rw [if_neg hp]
  show decodeMessage (btoaModel (encodePayload m p salt nonce)) p = Except.ok m
  have hbytes : ∀ x ∈ salt ++ nonce ++ aeadEncrypt p salt nonce m, x < 256 := by
    intro x hx
    simp only [List.mem_append] at hx
    rcases hx with (h | h) | h
    · exact hsb x h
    · exact hnb x h
    · exact aeadEncrypt_mem_lt p salt nonce m hsb hnb x h
  have hpay : encodePayload m p salt nonce = salt ++ nonce ++ aeadEncrypt p salt nonce m := by
    unfold encodePayload
    exact map_mod_self _ hbytes
  rw [hpay]
  rw [decodeMessage_framed p salt nonce _ hp hs hn hbytes (aeadEncrypt_ne_nil p salt nonce m)]
  rw [aeadDecrypt_aeadEncrypt]

/-- Witness for the round-trip theorem at a concrete message, passphrase, salt
and nonce. -/
theorem roundtrip_decode_encode_w :
    (encodeMessage "Hi" "k" (List.replicate 16 0) (List.replicate 12 0)).bind
      (fun blob => decodeMessage blob "k") = Except.ok "Hi" :=
  roundtrip_decode_encode "Hi" "k" (List.replicate 16 0) (List.replicate 12 0)
    (by decide) (by decide) (by decide) (by decide) (by decide)

/-- C2: decoding a valid blob under any other non-empty passphrase, or decoding
a blob whose ciphertext portion has any single byte flipped, both fail with the
same generic authentication failure and never return plaintext. -/
theorem auth_failure_collapse (m p1 : String) (salt nonce : List Nat)
    (hp1 : p1 ≠ "") (hs : salt.length = 16) (hn : nonce.length = 12)
    (hsb : ∀ x ∈ salt, x < 256) (hnb : ∀ x ∈ nonce, x < 256) :
    encodeMessage m p1 salt nonce = Except.ok (btoaModel (encodePayload m p1 salt nonce)) ∧
    (∀ p2, p2 ≠ "" → p2 ≠ p1 →
      decodeMessage (btoaModel (encodePayload m p1 salt nonce)) p2
        = Except.error CodecError.authenticationFailure) ∧
    (∀ j b, 28 + j < (encodePayload m p1 salt nonce).length → b < 256 →
      b ≠ (encodePayload m p1 salt nonce).getD (28 + j) 0 →
      decodeMessage (btoaModel ((encodePayload m p1 salt nonce).set (28 + j) b)) p1
        = Except.error CodecError.authenticationFailure) := by
  have hbytes : ∀ x ∈ salt ++ nonce ++ aeadEncrypt p1 salt nonce m, x < 256 := by
    intro x hx
    simp only [List.mem_append] at hx
    rcases hx with (h | h) | h
    · exact hsb x h
    · exact hnb x h
    · exact aeadEncrypt_mem_lt p1 salt nonce m hsb hnb x h
  have hpay : encodePayload m p1 salt nonce = salt ++ nonce ++ aeadEncrypt p1 salt nonce m := by
    unfold encodePayload
    exact map_mod_self _ hbytes
  have h28 : (salt ++ nonce).length = 28 := by simp [hs, hn]
  refine ⟨by unfold encodeMessage; rw [if_neg hp1], ?_, ?_⟩
  · intro p2 hp2 hne
    rw [hpay]
    rw [decodeMessage_framed p2 salt nonce _ hp2 hs hn hbytes (aeadEncrypt_ne_nil p1 salt nonce m)]
    rw [aeadDecrypt_wrong_key p1 p2 salt nonce m hne]
  · intro j b hj hblt hb
    rw [hpay] at hj hb ⊢
    set ct := aeadEncrypt p1 salt nonce m with hct
    have hjlt : j < ct.length := by
      simp only [List.length_append] at hj
      omega
    have hset : (salt ++ nonce ++ ct).set (28 + j) b = salt ++ nonce ++ ct.set j b := by
      have := set_append_right (salt ++ nonce) ct (28 + j) b (by omega)
      rw [h28] at this
      simpa [Nat.add_sub_cancel_left] using this
    rw [hset]
    have hbytes2 : ∀ x ∈ salt ++ nonce ++ ct.set j b, x < 256 := by
      intro x hx
      simp only [List.mem_append] at hx
      rcases hx with (h | h) | h
      · exact hsb x h
      · exact hnb x h
      · rcases List.mem_or_eq_of_mem_set h with h2 | h2
        · exact hbytes x (by simp [h2])
        · omega
    have hne2 : ct.set j b ≠ [] := by
      intro hcon
      have h0 := congrArg List.length hcon
      rw [List.length_set] at h0
      simp only [List.length_nil] at h0
      omega
    rw [decodeMessage_framed p1 salt nonce _ hp1 hs hn hbytes2 hne2]
    have hbd : b ≠ ct.getD j 0 := by
      intro hcon
      apply hb
      rw [List.getD_eq_getElem?_getD, List.getElem?_append_right (by rw [h28]; omega : (salt ++ nonce).length ≤ 28 + j)]
      rw [h28, Nat.add_sub_cancel_left, ← List.getD_eq_getElem?_getD]
      exact hcon
    rw [aeadDecrypt_tampered p1 salt nonce m j b hjlt hblt hbd]

/-- Witness for the authentication-failure theorem: a wrong passphrase and a
flipped ciphertext byte both yield the generic failure on a concrete blob. -/
theorem auth_failure_collapse_w :
    decodeMessage (btoaModel (encodePayload "A" "k" (List.replicate 16 0) (List.replicate 12 0))) "q"
      = Except.error CodecError.authenticationFailure ∧
    decodeMessage (btoaModel ((encodePayload "A" "k" (List.replicate 16 0) (List.replicate 12 0)).set 28 9)) "k"
      = Except.error CodecError.authenticationFailure := by
  have h := auth_failure_collapse "A" "k" (List.replicate 16 0) (List.replicate 12 0)
    (by decide) (by decide) (by decide) (by decide) (by decide)
  refine ⟨h.2.1 "q" (by decide) (by decide), ?_⟩
  have h2 := h.2.2 0 9 (by decide) (by decide) (by decide)
  simpa using h2

/-- C4: any input whose base64 decoding succeeds with at most 28 bytes is
rejected as a malformed payload, for every non-empty passphrase. -/
theorem length_guard (s p : String) (bytes : List Nat) (hp : p ≠ "")
    (hdec : atobModel s = some bytes) (hlen : bytes.length ≤ 28) :
    decodeMessage s p = Except.error CodecError.malformedPayload := by
  unfold decodeMessage
  rw [if_neg hp, hdec]
  dsimp only
  rw [if_pos hlen]

/-- Witness for the length-guard theorem at the empty blob. -/
theorem length_guard_w :
    decodeMessage "" "x" = Except.error CodecError.malformedPayload :=
  length_guard "" "x" [] (by decide) (by decide) (by decide)

/-- C3 (amended): input that is not well-formed base64 makes decodeMessage fail
with the uncaught platform InvalidCharacterError from atob, not with the
MalformedPayload error of the repository. -/
theorem malformed_base64_platform_error (s p : String) (hp : p ≠ "")
    (hdec : atobModel s = none) :
    decodeMessage s p = Except.error CodecError.invalidCharacter := by
  unfold decodeMessage
  rw [if_neg hp, hdec]

/-- Witness for the platform-error theorem at a concrete malformed input. -/
theorem malformed_base64_platform_error_w :
    decodeMessage "%" "x" = Except.error CodecError.invalidCharacter :=
  malformed_base64_platform_error "%" "x" (by decide) (by decide)

/-- Counterexample to C3 as stated: the malformed input "%" with non-empty
passphrase does not produce the MalformedPayload error. -/
theorem malformed_base64_not_malformedPayload :
    atobModel "%" = none ∧ ("x" : String) ≠ "" ∧
    decodeMessage "%" "x" ≠ Except.error CodecError.malformedPayload := by
  refine ⟨by decide, by decide, by decide⟩

theorem slice_drop_append (text : List Char) (start e : Nat) (h1 : start ≤ e)
    (h2 : start ≤ text.length) :
    (text.take e).drop start ++ text.drop e = text.drop start := by
  conv_rhs => rw [← List.take_append_drop e text]
  rw [List.drop_append_eq_append_drop]
  have : start - (text.take e).length = 0 := by
    rw [List.length_take]
    omega
  rw [this, List.drop_zero]

theorem splitGo_join (fuel : Nat) (text : List Char) (i start : Nat)
    (acc : List (List Char)) (hfuel : text.length ≤ fuel + i) (hsi : start ≤ i) :
    (splitGo fuel text i start acc).flatten = acc.flatten ++ text.drop start := by
  induction fuel generalizing i start acc with
  | zero =>
    unfold splitGo
    by_cases hlt : start < text.length
    · simp [hlt]
    · simp [hlt, List.drop_eq_nil_of_le (by omega : text.length ≤ start)]
  | succ fuel ih =>
    unfold splitGo
    by_cases hi : i < text.length
    · rw [if_pos hi]
      dsimp only
      by_cases hterm : isTerminator (text.getD i ' ')
          ∧ (text.length ≤ i + 1 ∨ isJsWs (text.getD (i + 1) ' '))
      · rw [if_pos hterm]
        by_cases hse : start < skipWsFrom text (i + 1)
        · rw [if_pos hse]
          have hge : i + 1 ≤ skipWsFrom text (i + 1) := Nat.le_add_right _ _
          rw [ih (skipWsFrom text (i + 1)) (skipWsFrom text (i + 1)) _ (by omega) le_rfl]
          rw [List.flatten_append]
          simp only [List.flatten_cons, List.flatten_nil, List.append_nil]
          rw [List.append_assoc]
          rw [slice_drop_append text start _ (by omega) (by omega)]
        · rw [if_neg hse]
          exact ih (i + 1) start acc (by omega) (by omega)
      · rw [if_neg hterm]
        exact ih (i + 1) start acc (by omega) (by omega)
    · rw [if_neg hi]
      by_cases hlt : start < text.length
      · simp [hlt]
      · simp [hlt, List.drop_eq_nil_of_le (by omega : text.length ≤ start)]

theorem flatten_filter_ne_nil (l : List (List Char)) :
    (l.filter (fun s => s ≠ [])).flatten = l.flatten := by
  induction l with
  | nil => rfl
  | cons x l ih =>
    rw [List.filter_cons]
    by_cases hx : x = []
    · subst hx
      rw [if_neg (by simp)]
      simpa using ih
    · rw [if_pos (by simp [hx])]
      rw [List.flatten_cons, List.flatten_cons, ih]

theorem map_data_map_mk (l : List (List Char)) :
    ((l.map String.mk).map String.data) = l := by
  induction l with
  | nil => rfl
  | cons x l ih => simp [ih, string_mk_data]

/-- C9: the sentence splitter partitions its input; concatenating the returned
sentences in order restores the original string exactly. -/
theorem split_sentences_partition (text : String) :
    joinStrings (splitIntoSentences text) = text := by
  unfold joinStrings splitIntoSentences
  rw [map_data_map_mk, flatten_filter_ne_nil]
  rw [splitGo_join text.data.length text.data 0 0 [] (by omega) le_rfl]
  simp [string_mk_data]

/-- C5 (counterexample): on the four-sentence example the first sentence is not
rendered as three asterisks with a visible terminator. -/
theorem sentence_window_example_not_as_specified :
    computeMaskedDecoded "One. Two. Three. Four." ≠ "***. Two. Three. Four." := by decide

/-- C5 (amended): on the four-sentence example the first sentence is masked in
every non-whitespace character including its terminator, with the whitespace
layout preserved, and sentences two to four are shown in full. -/
theorem sentence_window_example_masked :
    computeMaskedDecoded "One. Two. Three. Four." = "**** Two. Three. Four." := by decide

/-- C7: the input-masking projection hides every completed word and keeps the
trailing word visible, and the idle-timeout projection (scheduled after 5000
milliseconds) hides the trailing word as well. -/
theorem input_masking_example :
    computeDisplayMessage "the quick brown" false = "*** ***** brown" ∧
    idleMaskedDisplay "the quick brown" = "*** ***** *****" ∧
    maskDelayMs = 5000 := by
  refine ⟨by decide, by decide, rfl⟩

theorem string_mk_append (a b : List Char) :
    String.mk (a ++ b) = String.mk a ++ String.mk b := rfl

theorem string_append_empty (a : String) : a ++ "" = a := by
  cases a with
  | mk l =>
    show String.mk (l ++ []) = String.mk l
    rw [List.append_nil]

theorem splitIntoSentences_empty : splitIntoSentences "" = [] := rfl

theorem joinStrings_cons (x : String) (l : List String) :
    joinStrings (x :: l) = x ++ joinStrings l := by
  unfold joinStrings
  rw [List.map_cons, List.flatten_cons, string_mk_append]

theorem enumFrom_map_of_pos {α : Type} (f : Nat × α → α) (n : Nat) (l : List α)
    (h : ∀ i x, i ≠ 0 → f (i, x) = x) (hn : n ≠ 0) :
    (List.enumFrom n l).map f = l := by
  induction l generalizing n with
  | nil => rfl
  | cons x l ih =>
    rw [List.enumFrom_cons, List.map_cons, h n x hn, ih (n + 1) (by omega)]

theorem computeMaskedDecoded_small (text s0 : String) (rest : List String)
    (hsplit : splitIntoSentences text = s0 :: rest) (hle : rest.length ≤ 2) :
    computeMaskedDecoded text = maskLeadingPortion s0 ++ joinStrings rest := by
  have htext : text ≠ "" := by
    intro hcon
    rw [hcon, splitIntoSentences_empty] at hsplit
    exact List.noConfusion hsplit
  unfold computeMaskedDecoded
  rw [if_neg htext, hsplit]
  dsimp only
  have hlen0 : ¬ ((s0 :: rest).length = 0) := by simp
  rw [if_neg hlen0]
  have hvs : (s0 :: rest).length - 3 = 0 := by
    simp only [List.length_cons]
    omega
  rw [hvs]
  rw [List.enum_cons]
  rw [List.map_cons]
  have hhead : (if (0 : Nat) < 0 then maskNonWs s0
      else if (s0 :: rest).length ≤ 3 ∧ (0 : Nat) = 0 then maskLeadingPortion s0
      else s0) = maskLeadingPortion s0 := by
    rw [if_neg (by omega)]
    rw [if_pos ⟨by simp only [List.length_cons]; omega, rfl⟩]
  rw [hhead]
  have htail : (List.enumFrom 1 rest).map (fun p =>
      if p.1 < 0 then maskNonWs p.2
      else if (s0 :: rest).length ≤ 3 ∧ p.1 = 0 then maskLeadingPortion p.2
      else p.2) = rest := by
    apply enumFrom_map_of_pos
    · intro i x hi
      dsimp only
      rw [if_neg (by omega)]
      rw [if_neg (by rintro ⟨_, hcon⟩; omega)]
    · omega
  rw [htail]
  exact joinStrings_cons _ _

theorem maskLeadingPortion_eq_spec (seg : String) :
    maskLeadingPortion seg = maskedPrefixSpec seg := by
  unfold maskLeadingPortion maskedPrefixSpec
  by_cases h : seg.data = []
  · rw [if_pos h]
    have hlen : seg.length = 0 := by
      show seg.data.length = 0
      rw [h]
      rfl
    rw [hlen, h]
    rfl
  · rw [if_neg h]

/-- C6: whenever the revealed prefix splits into at most three sentences, the
masked rendering is the earliest sentence with all but the trailing
max(6, floor(0.25 times length)) characters star-masked, followed by all later
sentences in full. -/
theorem sentence_window_small_mask (text s0 : String) (rest : List String)
    (hsplit : splitIntoSentences text = s0 :: rest) (hle : rest.length ≤ 2) :
    computeMaskedDecoded text = maskedPrefixSpec s0 ++ joinStrings rest := by
  rw [computeMaskedDecoded_small text s0 rest hsplit hle, maskLeadingPortion_eq_spec]

/-- Witness for the small-prefix masking theorem on a concrete one-sentence
text. -/
theorem sentence_window_small_mask_w :
    computeMaskedDecoded "Hello there." = maskedPrefixSpec "Hello there." ++ joinStrings [] :=
  sentence_window_small_mask "Hello there." "Hello there." [] (by decide) (by decide)

/-- C10: a text that forms one single sentence of at most six characters is
rendered completely unmasked. -/
theorem single_short_sentence_unmasked (s : String)
    (hsplit : splitIntoSentences s = [s]) (hlen : s.length ≤ 6) :
    computeMaskedDecoded s = s := by
  rw [computeMaskedDecoded_small s s [] hsplit (by simp)]
  have hmlp : maskLeadingPortion s = s := by
    unfold maskLeadingPortion
    by_cases h : s.data = []
    · rw [if_pos h]
      cases s with
      | mk l =>
        simp only at h
        rw [h]
    · rw [if_neg h]
      dsimp only
      have hml : s.length - max 6 (s.length / 4) = 0 := by omega
      rw [hml]
      rw [List.take_zero, List.map_nil, List.nil_append, List.drop_zero]
  rw [hmlp]
  show s ++ joinStrings [] = s
  have : joinStrings [] = "" := rfl
  rw [this, string_append_empty]

/-- Witness for the short-single-sentence theorem at a concrete input. -/
theorem single_short_sentence_unmasked_w :
    computeMaskedDecoded "Hi." = "Hi." :=
  single_short_sentence_unmasked "Hi." (by decide) (by decide)

theorem prefixOf_full (t : String) (k : Nat) (h : t.length ≤ k) : prefixOf t k = t := by
  unfold prefixOf
  rw [List.take_of_length_le h]

theorem animState_char (t : String) (k : Nat) :
    animState t k =
      if k = 0 then animInit
      else if k < revealSteps t then
        { index := k, displayedResult := computeMaskedDecoded (prefixOf t k),
          isAnimating := true, timerPending := true }
      else
        { index := revealSteps t, displayedResult := computeMaskedDecoded t,
          isAnimating := false, timerPending := false } := by
  induction k with
  | zero => simp [animState]
  | succ k ih =>
    have hstep : animState t (k + 1) = revealStep t (animState t k) :=
      Function.iterate_succ_apply' (revealStep t) k animInit
    rw [hstep, ih]
    rcases Nat.eq_zero_or_pos k with hk0 | hkpos
    · subst hk0
      rw [if_pos rfl]
      unfold revealStep animInit
      dsimp only
      rw [if_pos rfl]
      by_cases h1 : 1 < t.length
      · rw [if_pos h1]
        rw [if_neg (by omega), if_pos (by unfold revealSteps; omega)]
      · rw [if_neg h1]
        rw [if_neg (by omega), if_neg (by unfold revealSteps; omega)]
        have h2 : revealSteps t = 0 + 1 := by unfold revealSteps; omega
        rw [h2]
    · rw [if_neg (by omega)]
      by_cases hkN : k < revealSteps t
      · rw [if_pos hkN]
        have hNlen : revealSteps t = t.length := by
          unfold revealSteps at hkN ⊢
          omega
        unfold revealStep
        dsimp only
        rw [if_pos rfl]
        by_cases h1 : k + 1 < t.length
        · rw [if_pos h1]
          rw [if_neg (by omega), if_pos (by omega)]
        · rw [if_neg h1]
          rw [if_neg (by omega), if_neg (by omega)]
          have : revealSteps t = k + 1 := by omega
          rw [this]
      · rw [if_neg hkN]
        unfold revealStep
        dsimp only
        rw [if_neg (by simp)]
        rw [if_neg (by omega), if_neg (by omega)]

/-- C8: during a revealing run, the revealed prefix length never decreases,
every frame from the first callback on renders the masked current prefix, the
prefix is strictly shorter than the text before the final step and reaches the
full text exactly at step revealSteps, after which the state is complete
(isAnimating false, timer cleared) and frozen. -/
theorem reveal_monotone_terminal (t : String) :
    (∀ k, (animState t k).index ≤ (animState t (k + 1)).index) ∧
    (∀ k, 1 ≤ k → (animState t k).displayedResult
        = computeMaskedDecoded (prefixOf t (animState t k).index)) ∧
    (∀ k, 1 ≤ k → k < revealSteps t →
        (animState t k).index < t.length ∧ (animState t k).isAnimating = true ∧
        (animState t k).timerPending = true) ∧
    (animState t (revealSteps t)
        = { index := revealSteps t, displayedResult := computeMaskedDecoded t,
            isAnimating := false, timerPending := false }) ∧
    (∀ k, revealSteps t ≤ k → animState t k = animState t (revealSteps t)) := by
  have hN : 1 ≤ revealSteps t := by unfold revealSteps; omega
  refine ⟨?_, ?_, ?_, ?_, ?_⟩
  · intro k
    rw [animState_char t k, animState_char t (k + 1)]
    by_cases hk0 : k = 0
    · subst hk0
      by_cases h1 : 1 < revealSteps t <;> simp [h1, animInit]
    · by_cases hkN : k < revealSteps t
      · by_cases hkN1 : k + 1 < revealSteps t
        · simp [hk0, hkN, hkN1]
        · simp [hk0, hkN, hkN1]
          omega
      · rw [if_neg hk0, if_neg hkN, if_neg (by omega : ¬ (k + 1 = 0)),
          if_neg (by omega : ¬ (k + 1 < revealSteps t))]
  · intro k hk
    rw [animState_char t k]
    rw [if_neg (by omega)]
    by_cases hkN : k < revealSteps t
    · rw [if_pos hkN]
    · rw [if_neg hkN]
      dsimp only
      rw [prefixOf_full t (revealSteps t) (by unfold revealSteps; omega)]
  · intro k hk hkN
    rw [animState_char t k]
    rw [if_neg (by omega), if_pos hkN]
    refine ⟨?_, rfl, rfl⟩
    unfold revealSteps at hkN
    dsimp only
    omega
  · rw [animState_char t (revealSteps t)]
    rw [if_neg (by omega), if_neg (by omega)]
  · intro k hk
    rw [animState_char t k, animState_char t (revealSteps t)]
    rw [if_neg (by omega), if_neg (by omega), if_neg (by omega), if_neg (by omega)]

/-- Witness for the reveal theorem on a concrete three-character text: the
third callback is the completing one and the second is still revealing. -/
theorem reveal_monotone_terminal_w :
    animState "Hi." 3
      = { index := 3, displayedResult := computeMaskedDecoded "Hi.",
          isAnimating := false, timerPending := false } ∧
    (animState "Hi." 2).index < ("Hi." : String).length := by
  have h := reveal_monotone_terminal "Hi."
  exact ⟨h.2.2.2.1, (h.2.2.1 2 (by omega) (by decide)).1⟩

end Anzen
